import Mathlib

/-!
Verification development for `isg.py` (Interdependent Scheduling Games).
We shallowly embed the instance generator `gen_instance` and the
integer-program formulation `model_isg`, and prove properties of the
embedding.  The Python random source is modelled as a stream of natural
numbers consumed one draw at a time.
-/

namespace ISG

/-- A random source: an infinite stream of raw natural draws together with a
position.  Each primitive draw consumes one stream element.  This models
Python's global `random` state abstractly. -/
structure Rng where
  stream : Nat → Nat
  pos : Nat

/-- `random.randint(lo, hi)`: a uniform draw from the inclusive range
`lo..hi`, modelled by reducing the next raw draw modulo the range size. -/
def randint (lo hi : Nat) (g : Rng) : Nat × Rng :=
  (lo + g.stream g.pos % (hi + 1 - lo), ⟨g.stream, g.pos + 1⟩)

/-- Big-endian decimal digit characters of a positive natural number,
by repeated division; the first argument is recursion fuel. -/
def natStrAux : Nat → Nat → List Char
  | 0, _ => []
  | _ + 1, 0 => []
  | fuel + 1, n + 1 =>
    natStrAux fuel ((n + 1) / 10) ++ [Nat.digitChar ((n + 1) % 10)]

/-- Decimal digit string (list of characters) of a natural number,
mirroring Python's `str(n)` for naturals. -/
def natStr (n : Nat) : List Char :=
  if n = 0 then ['0'] else natStrAux n n

/-- Python `str(n)` for a natural number. -/
def natToStr (n : Nat) : String :=
  ⟨natStr n⟩

/-- Time-step label `'ts_'+str(i)` from `gen_instance`. -/
def tsName (i : Nat) : String :=
  "ts_" ++ natToStr i

/-- Task label `"P"+str(i)+"_T"+str(j)` from `gen_instance`. -/
def taskName (i j : Nat) : String :=
  "P" ++ natToStr i ++ "_T" ++ natToStr j

/-- `x[i], x[j] = x[j], x[i]`: swap two positions of a list. -/
def listSwap (x : List String) (i j : Nat) : List String :=
  (x.set i (x.getD j "")).set j (x.getD i "")

/-- The Fisher–Yates loop of `random.shuffle`: for `i` from `len-1` down
to `1`, draw `j` uniformly from `0..i` and swap positions `i` and `j`. -/
def shuffleGo : List String → Nat → Rng → List String × Rng
  | x, 0, g => (x, g)
  | x, Nat.succ k, g =>
    let p := randint 0 (k + 1) g
    shuffleGo (listSwap x (k + 1) p.1) k p.2

/-- `random.shuffle(x)`: uniform in-place shuffle, modelled functionally. -/
def shuffle (x : List String) (g : Rng) : List String × Rng :=
  shuffleGo x (x.length - 1) g

/-- The reward loop of `gen_instance`: for each task in order, reward 1 if
`uniform`, else a fresh `random.randint(50, 100)` draw. -/
def gen_rewards (uniform : Bool) : List String → Rng → List (String × Nat) × Rng
  | [], g => ([], g)
  | i :: rest, g =>
    if uniform then
      let p := gen_rewards uniform rest g
      ((i, 1) :: p.1, p.2)
    else
      let d := randint 50 100 g
      let p := gen_rewards uniform rest d.2
      ((i, d.1) :: p.1, p.2)

/-- The inner edge loop of `gen_instance`:
`for r in range(k): if len(pop_list) > r+1: if random.randint(0,3) > 1:
edges.append((t0, pop_list[r]))`.  The first argument counts the remaining
iterations, the second is the current offset `r`. -/
def edge_inner (t0 : String) (pop : List String) : Nat → Nat → Rng → List (String × String) × Rng
  | 0, _, g => ([], g)
  | Nat.succ m, r, g =>
    if pop.length > r + 1 then
      let c := randint 0 3 g
      let p := edge_inner t0 pop m (r + 1) c.2
      (if c.1 > 1 then (t0, pop.getD r "") :: p.1 else p.1, p.2)
    else
      edge_inner t0 pop m (r + 1) g

/-- The outer edge loop of `gen_instance`: while more than one task remains,
pop the front task `t0`, draw `k = random.randint(1, 5)` and run the inner
loop for offsets `0..k-1` over the remaining pool. -/
def gen_edges : List String → Rng → List (String × String) × Rng
  | [], g => ([], g)
  | [_], g => ([], g)
  | t0 :: r1 :: rest, g =>
    let k := randint 1 5 g
    let p := edge_inner t0 (r1 :: rest) k.1 0 k.2
    let q := gen_edges (r1 :: rest) p.2
    (p.1 ++ q.1, q.2)

/-- The whole edge-generation step of `gen_instance`: copy the flattened
task pool, shuffle it, then run the popping loop. -/
def edge_step (tasks : List (String × List String)) (g : Rng) : List (String × String) × Rng :=
  let pop_list := (tasks.map Prod.snd).flatten
  let s := shuffle pop_list g
  gen_edges s.1 s.2

/-- A generated ISG instance: time-step labels, the (insertion-ordered)
player → task-list dictionary, the task → reward dictionary, and the
dependency-edge list. -/
structure Instance where
  time_steps : List String
  tasks : List (String × List String)
  rewards : List (String × Nat)
  edges : List (String × String)
deriving DecidableEq, Repr

/-- The time-step labels `['ts_'+str(i) for i in range(1, num_tasks+1)]`
built by `gen_instance`. -/
def genSteps (num_tasks : Nat) : List String :=
  (List.range' 1 num_tasks).map tsName

/-- The player → task-list dictionary built by `gen_instance`:
`tasks["P"+str(i)] = ["P"+str(i)+"_T"+str(j) for j in range(1,num_tasks+1)]`. -/
def genTasks (num_players num_tasks : Nat) : List (String × List String) :=
  (List.range' 1 num_players).map
    (fun i => ("P" ++ natToStr i, (List.range' 1 num_tasks).map (taskName i)))

/-- `gen_instance(num_players, num_tasks, uniform)` from `isg.py`. -/
def gen_instance (num_players num_tasks : Nat) (uniform : Bool) (g : Rng) : Instance × Rng :=
  let time_steps := genSteps num_tasks
  let tasks := genTasks num_players num_tasks
  let all_tasks := (tasks.map Prod.snd).flatten
  let r := gen_rewards uniform all_tasks g
  let e := edge_step tasks r.2
  (⟨time_steps, tasks, r.1, e.1⟩, e.2)

/-- A decision variable of the formulated model: `s_v_t` (`scheduled_times`)
or `a_v_t` (`active_times`) for a task `v` and a time step `t`. -/
inductive Var
  | sched (v t : String)
  | activ (v t : String)
deriving DecidableEq, Repr

/-- Comparison operator of a linear constraint. -/
inductive Cmp
  | le
  | ge
  | eq
deriving DecidableEq, Repr

/-- A linear expression: a list of (coefficient, variable) terms plus a
constant. -/
structure LinExpr where
  terms : List (Int × Var)
  const : Int
deriving DecidableEq, Repr

/-- A linear constraint `lhs cmp rhs` of the formulated model. -/
structure Constr where
  lhs : LinExpr
  cmp : Cmp
  rhs : LinExpr
deriving DecidableEq, Repr

/-- The formulated integer program: binary variables, constraints, and the
terms of the maximization objective. -/
structure IPModel where
  vars : List Var
  constrs : List Constr
  objective : List (Int × Var)
deriving DecidableEq, Repr

/-- `list(itertools.chain.from_iterable(list(tasks.values())))`. -/
def allTasks (tasks : List (String × List String)) : List String :=
  (tasks.map Prod.snd).flatten

/-- Variable creation of `model_isg`: for every `(v, t)` in
`itertools.product(all_tasks, time_steps)`, a `scheduled` then an `active`
binary variable. -/
def mkVars (all_tasks time_steps : List String) : List Var :=
  (all_tasks.product time_steps).flatMap fun vt => [Var.sched vt.1 vt.2, Var.activ vt.1 vt.2]

/-- "Every task is only scheduled once": for every task `v`,
`sum_t scheduled[v,t] = 1`. -/
def taskOnceCs (all_tasks time_steps : List String) : List Constr :=
  all_tasks.map fun v =>
    ⟨⟨time_steps.map fun t => ((1 : Int), Var.sched v t), 0⟩, Cmp.eq, ⟨[], 1⟩⟩

/-- "For the set of each player's tasks, there is only one task per time
step": for every player `p` and step `t`, `sum_{v in p} scheduled[v,t] = 1`. -/
def playerSlotCs (tasks : List (String × List String)) (time_steps : List String) : List Constr :=
  tasks.flatMap fun p => time_steps.map fun t =>
    ⟨⟨p.2.map fun v => ((1 : Int), Var.sched v t), 0⟩, Cmp.eq, ⟨[], 1⟩⟩

/-- One activity-linkage constraint: for task `v` and the `i`-th step `t`,
`sum_{j=0..i} scheduled[v, time_steps[j]] ≥ active[v,t]`. -/
def linkC (time_steps : List String) (v : String) (i : Nat) (t : String) : Constr :=
  ⟨⟨(time_steps.take (i + 1)).map fun u => ((1 : Int), Var.sched v u), 0⟩, Cmp.ge,
    ⟨[((1 : Int), Var.activ v t)], 0⟩⟩

/-- "Link active times to scheduled times": for every task and every
`(i, t)` in `enumerate(time_steps)`, the linkage constraint. -/
def linkCs (all_tasks time_steps : List String) : List Constr :=
  all_tasks.flatMap fun v => time_steps.enum.map fun it => linkC time_steps v it.1 it.2

/-- One dependency-edge constraint `active[e1,t] ≤ active[e0,t]`. -/
def edgeC (e : String × String) (t : String) : Constr :=
  ⟨⟨[((1 : Int), Var.activ e.2 t)], 0⟩, Cmp.le, ⟨[((1 : Int), Var.activ e.1 t)], 0⟩⟩

/-- The `(edge, time-step)` pairs visited by the nested edge loops of
`model_isg`, in visiting order. -/
def edgePairs (edges : List (String × String)) (time_steps : List String) :
    List ((String × String) × String) :=
  edges.flatMap fun e => time_steps.map fun t => (e, t)

/-- Whether the dictionary lookups `active_times[e[1],t]` and
`active_times[e[0],t]` both succeed: the keys of `active_times` are exactly
`all_tasks × time_steps`. -/
def edgeKeysOk (all_tasks time_steps : List String) (e : String × String) (t : String) : Bool :=
  (decide (e.2 ∈ all_tasks) && decide (t ∈ time_steps)) &&
    (decide (e.1 ∈ all_tasks) && decide (t ∈ time_steps))

/-- The edge-constraint loop of `model_isg`: add one constraint per visited
pair; a failing dictionary lookup raises `KeyError` and aborts. -/
def edgeCs (all_tasks time_steps : List String) :
    List ((String × String) × String) → Except String (List Constr)
  | [] => Except.ok []
  | (e, t) :: rest =>
    if edgeKeysOk all_tasks time_steps e t then
      match edgeCs all_tasks time_steps rest with
      | Except.ok cs => Except.ok (edgeC e t :: cs)
      | Except.error s => Except.error s
    else
      Except.error "KeyError"

/-- Objective-term accumulation over the `(task, step)` pairs; `none` when
some reward lookup raises `KeyError`. -/
def objTermsGo (rewards : List (String × Nat)) :
    List (String × String) → Option (List (Int × Var))
  | [] => some []
  | vt :: rest =>
    match rewards.lookup vt.1, objTermsGo rewards rest with
    | some w, some l => some (((w : Int), Var.activ vt.1 vt.2) :: l)
    | _, _ => none

/-- The objective terms
`quicksum(active_times[v,t] * rewards[v] for v,t in product(all_tasks, time_steps))`;
`none` when some reward lookup raises `KeyError`. -/
def objTerms (all_tasks time_steps : List String) (rewards : List (String × Nat)) :
    Option (List (Int × Var)) :=
  objTermsGo rewards (all_tasks.product time_steps)

/-- `model_isg(time_steps, tasks, rewards, edges)` from `isg.py`: create all
variables, add the four constraint families, set the objective.  A failing
dictionary lookup surfaces as `Except.error "KeyError"`. -/
def model_isg (time_steps : List String) (tasks : List (String × List String))
    (rewards : List (String × Nat)) (edges : List (String × String)) :
    Except String IPModel :=
  let all_tasks := allTasks tasks
  let vars := mkVars all_tasks time_steps
  match edgeCs all_tasks time_steps (edgePairs edges time_steps) with
  | Except.error s => Except.error s
  | Except.ok cs4 =>
    match objTerms all_tasks time_steps rewards with
    | none => Except.error "KeyError"
    | some obj =>
      Except.ok ⟨vars,
        taskOnceCs all_tasks time_steps ++ playerSlotCs tasks time_steps ++
          linkCs all_tasks time_steps ++ cs4, obj⟩

/-- One observable event of a `model_isg` run, in program order. -/
inductive Event
  | varCreated (x : Var)
  | constrAdded (c : Constr)
  | keyError
deriving DecidableEq, Repr

/-- The events of the edge-constraint loop: one `constrAdded` per visited
pair until a lookup fails, which emits `keyError` and stops the run. -/
def edgeEvents (all_tasks time_steps : List String) :
    List ((String × String) × String) → List Event
  | [] => []
  | (e, t) :: rest =>
    if edgeKeysOk all_tasks time_steps e t then
      Event.constrAdded (edgeC e t) :: edgeEvents all_tasks time_steps rest
    else
      [Event.keyError]

/-- The full event trace of `model_isg`, in program order: variable
creations, then the constraint families, then the edge loop (which may
abort), then the objective's reward lookups (which may abort). -/
def model_events (time_steps : List String) (tasks : List (String × List String))
    (rewards : List (String × Nat)) (edges : List (String × String)) : List Event :=
  let all_tasks := allTasks tasks
  let pre := (mkVars all_tasks time_steps).map Event.varCreated
    ++ (taskOnceCs all_tasks time_steps).map Event.constrAdded
    ++ (playerSlotCs tasks time_steps).map Event.constrAdded
    ++ (linkCs all_tasks time_steps).map Event.constrAdded
  let ev := edgeEvents all_tasks time_steps (edgePairs edges time_steps)
  if Event.keyError ∈ ev then pre ++ ev
  else
    pre ++ ev ++
      (match objTerms all_tasks time_steps rewards with
       | none => [Event.keyError]
       | some _ => [])

/-- The 0/1 value of a boolean assignment at a variable. -/
def bval (b : Bool) : Int :=
  if b then 1 else 0

/-- Value of a linear expression under a 0/1 assignment of the binary
variables. -/
def evalExpr (a : Var → Bool) (e : LinExpr) : Int :=
  e.const + (e.terms.map fun cv => cv.1 * bval (a cv.2)).sum

/-- Whether a 0/1 assignment satisfies one constraint. -/
def satC (a : Var → Bool) (c : Constr) : Bool :=
  match c.cmp with
  | Cmp.le => decide (evalExpr a c.lhs ≤ evalExpr a c.rhs)
  | Cmp.ge => decide (evalExpr a c.rhs ≤ evalExpr a c.lhs)
  | Cmp.eq => decide (evalExpr a c.lhs = evalExpr a c.rhs)

/-- Whether a 0/1 assignment satisfies every constraint of a model. -/
def feasB (m : IPModel) (a : Var → Bool) : Bool :=
  m.constrs.all (satC a)

/-- Objective value of a 0/1 assignment. -/
def objVal (a : Var → Bool) (obj : List (Int × Var)) : Int :=
  (obj.map fun cv => cv.1 * bval (a cv.2)).sum

/-- `k` is the optimal objective value of model `m`: some feasible 0/1
assignment attains `k` and none exceeds it. -/
def IsOptimal (m : IPModel) (k : Int) : Prop :=
  (∃ a, feasB m a = true ∧ objVal a m.objective = k) ∧
    ∀ a, feasB m a = true → objVal a m.objective ≤ k

/-- Set every `active` variable of an assignment to 0, leaving the
`scheduled` variables unchanged. -/
def zeroActive (a : Var → Bool) : Var → Bool
  | Var.sched v t => a (Var.sched v t)
  | Var.activ _ _ => false

/-- A constraint mentions a variable when the variable occurs in its
left- or right-hand terms. -/
def Mentions (c : Constr) (x : Var) : Prop :=
  (∃ k, (k, x) ∈ c.lhs.terms) ∨ (∃ k, (k, x) ∈ c.rhs.terms)

/-- The interpreter state seen by `model_isg`: the four instance components
it can read (and could in principle mutate). -/
structure PyState where
  time_steps : List String
  tasks : List (String × List String)
  rewards : List (String × Nat)
  edges : List (String × String)
deriving DecidableEq, Repr

/-- `model_isg` as a state transformer on the instance it reads: each input
is read from the state, the model is built from the read values, and the
resulting state carries the (unmodified) instance components. -/
def model_isg_st (s : PyState) : Except String IPModel × PyState :=
  let ts := s.time_steps
  let tk := s.tasks
  let rw := s.rewards
  let ed := s.edges
  (model_isg ts tk rw ed, ⟨ts, tk, rw, ed⟩)

/-- Spec-mirror coin: "with probability 1/2 (a fair coin implemented as
'draw uniformly from 4 outcomes, succeed on 2 of them')". -/
def coinSpec (g : Rng) : Bool × Rng :=
  let d := randint 0 3 g
  (decide (d.1 = 2 ∨ d.1 = 3), d.2)

/-- Spec-mirror of the inner offset loop: "for offsets `i` in `0..r-1`:
if the remaining pool has at least `i+2` elements, then with probability
1/2 add edge `(t0, pool[i])`". -/
def edgeInnerSpec (t0 : String) (pool : List String) :
    Nat → Nat → Rng → List (String × String) × Rng
  | 0, _, g => ([], g)
  | Nat.succ m, i, g =>
    if i + 2 ≤ pool.length then
      let c := coinSpec g
      let p := edgeInnerSpec t0 pool m (i + 1) c.2
      (if c.1 then (t0, pool.getD i "") :: p.1 else p.1, p.2)
    else
      edgeInnerSpec t0 pool m (i + 1) g

/-- Spec-mirror of the popping loop: "Repeatedly pop the front task `t0`;
for a random count `r` drawn uniformly from 1..5 (inclusive) run the offset
loop.  Continue until the pool has at most one task left." -/
def edgeLoopSpec : List String → Rng → List (String × String) × Rng
  | [], g => ([], g)
  | [_], g => ([], g)
  | t0 :: x :: pool, g =>
    let r := randint 1 5 g
    let p := edgeInnerSpec t0 (x :: pool) r.1 0 r.2
    let q := edgeLoopSpec (x :: pool) p.2
    (p.1 ++ q.1, q.2)

/-- Spec-mirror of the whole edge-generation algorithm of the spec:
"flatten all tasks across all players into one pool; shuffle uniformly at
random", then the popping loop. -/
def edgeGenSpec (tasks : List (String × List String)) (g : Rng) :
    List (String × String) × Rng :=
  let pool := (tasks.map Prod.snd).flatten
  let s := shuffle pool g
  edgeLoopSpec s.1 s.2

/-- Time steps of the 2-player 2-task instance. -/
def ts22 : List String := ["ts_1", "ts_2"]

/-- Task dictionary of the 2-player 2-task instance. -/
def tasks22 : List (String × List String) :=
  [("P1", ["P1_T1", "P1_T2"]), ("P2", ["P2_T1", "P2_T2"])]

/-- Uniform rewards of the 2-player 2-task instance. -/
def rewards22 : List (String × Nat) :=
  [("P1_T1", 1), ("P1_T2", 1), ("P2_T1", 1), ("P2_T2", 1)]

/-- The model formulated for the 2-player 2-task instance with no edges
and uniform rewards. -/
def m22 : IPModel :=
  ((model_isg ts22 tasks22 rewards22 []).toOption).getD ⟨[], [], []⟩

/-- A feasible assignment of `m22` attaining objective value 6: each
player schedules task 1 at `ts_1` and task 2 at `ts_2`; tasks scheduled at
`ts_1` are active at both steps, tasks scheduled at `ts_2` only there. -/
def a6 : Var → Bool
  | Var.sched v t =>
    (v == "P1_T1" && t == "ts_1") || (v == "P1_T2" && t == "ts_2") ||
      (v == "P2_T1" && t == "ts_1") || (v == "P2_T2" && t == "ts_2")
  | Var.activ v t =>
    (v == "P1_T1") || (v == "P2_T1") ||
      (v == "P1_T2" && t == "ts_2") || (v == "P2_T2" && t == "ts_2")

/-- A malformed one-player one-task instance whose single dependency edge
references the unknown task `"ZZZ"`. -/
def tsBad : List String := ["ts_1"]

/-- Task dictionary of the malformed instance. -/
def tasksBad : List (String × List String) := [("P1", ["P1_T1"])]

/-- Rewards of the malformed instance. -/
def rewardsBad : List (String × Nat) := [("P1_T1", 1)]

/-- The malformed edge list: its edge references the unknown task `"ZZZ"`. -/
def edgesBad : List (String × String) := [("P1_T1", "ZZZ")]

/-- A one-edge edge list over the 2-player 2-task instance. -/
def edges22e : List (String × String) := [("P1_T1", "P2_T1")]

/-- The model formulated for the 2-player 2-task instance with the single
edge `("P1_T1", "P2_T1")`. -/
def m22e : IPModel :=
  ((model_isg ts22 tasks22 rewards22 edges22e).toOption).getD ⟨[], [], []⟩

/-- A concrete random source for witnesses. -/
def rng0 : Rng := ⟨fun _ => 0, 0⟩

/-- A concrete random source whose raw draws are all 2, used to produce a
generated instance that actually contains edges. -/
def rng2 : Rng := ⟨fun _ => 2, 0⟩

/-! ### Basic facts about the generated names -/

theorem natStrAux_zero (fuel : Nat) : natStrAux fuel 0 = [] := by
  cases fuel <;> rfl

theorem natStrAux_eq : ∀ (fuel n : Nat), 0 < n → n ≤ fuel →
    natStrAux fuel n = ((Nat.digits 10 n).map Nat.digitChar).reverse := by
  intro fuel
  induction fuel with
  | zero => intro n h1 h2; omega
  | succ fuel ih =>
    intro n h1 h2
    obtain ⟨k, rfl⟩ : ∃ k, n = k + 1 := ⟨n - 1, by omega⟩
    simp only [natStrAux]
    rw [Nat.digits_def' (by norm_num : (1 : Nat) < 10) h1, List.map_cons,
      List.reverse_cons]
    by_cases hq : (k + 1) / 10 = 0
    · rw [hq, natStrAux_zero]
      simp
    · rw [ih ((k + 1) / 10) (by omega) (by
        have := Nat.div_lt_self (show 0 < k + 1 by omega) (by norm_num : 1 < 10)
        omega)]

theorem natStr_eq_digits (n : Nat) :
    natStr n = if n = 0 then ['0'] else ((Nat.digits 10 n).map Nat.digitChar).reverse := by
  by_cases h : n = 0
  · simp [natStr, h]
  · rw [natStr, if_neg h, if_neg h, natStrAux_eq n n (by omega) (Nat.le_refl n)]

theorem digitChar_lt_ten_inj {a b : Nat} (ha : a < 10) (hb : b < 10)
    (h : Nat.digitChar a = Nat.digitChar b) : a = b := by
  have H : ∀ x y : Fin 10, Nat.digitChar x.val = Nat.digitChar y.val → x = y := by decide
  simpa using congrArg Fin.val (H ⟨a, ha⟩ ⟨b, hb⟩ h)

theorem digitChar_ne_underscore {d : Nat} (hd : d < 10) : Nat.digitChar d ≠ '_' := by
  have H : ∀ x : Fin 10, Nat.digitChar x.val ≠ '_' := by decide
  exact H ⟨d, hd⟩

theorem underscore_not_mem_natStr (n : Nat) : '_' ∉ natStr n := by
  rw [natStr_eq_digits]
  split
  · decide
  · intro hmem
    rw [List.mem_reverse] at hmem
    obtain ⟨d, hd, hEq⟩ := List.mem_map.mp hmem
    exact digitChar_ne_underscore (Nat.digits_lt_base (by norm_num) hd) hEq

theorem map_digitChar_inj : ∀ {l₁ l₂ : List Nat}, (∀ x ∈ l₁, x < 10) → (∀ x ∈ l₂, x < 10) →
    l₁.map Nat.digitChar = l₂.map Nat.digitChar → l₁ = l₂ := by
  intro l₁
  induction l₁ with
  | nil => intro l₂ _ _ h; cases l₂ <;> simp_all
  | cons a s ih =>
    intro l₂ h1 h2 h
    cases l₂ with
    | nil => simp_all
    | cons b u =>
      simp only [List.map_cons, List.cons.injEq] at h
      have hab : a = b :=
        digitChar_lt_ten_inj (h1 a (by simp)) (h2 b (by simp)) h.1
      have hrest := ih (fun x hx => h1 x (by simp [hx])) (fun x hx => h2 x (by simp [hx])) h.2
      simp [hab, hrest]

theorem natStr_inj : ∀ {m n : Nat}, natStr m = natStr n → m = n := by
  have key : ∀ n : Nat, n ≠ 0 → natStr n = ['0'] → False := by
    intro n hn h
    rw [natStr_eq_digits, if_neg hn] at h
    have hmap : (Nat.digits 10 n).map Nat.digitChar = ['0'] := by
      have := congrArg List.reverse h
      simpa using this
    have hdig : Nat.digits 10 n = [0] := by
      rcases hds : Nat.digits 10 n with _ | ⟨d, ds⟩
      · rw [hds] at hmap; simp at hmap
      · rw [hds] at hmap
        rcases ds with _ | ⟨d2, ds2⟩
        · simp only [List.map_cons, List.map_nil, List.cons.injEq] at hmap
          have hd10 : d < 10 := Nat.digits_lt_base (by norm_num) (by rw [hds]; simp)
          have : d = 0 := digitChar_lt_ten_inj hd10 (by norm_num) (by simpa using hmap.1)
          simp [this]
        · simp at hmap
    have : n = 0 := by
      have := Nat.ofDigits_digits 10 n
      rw [hdig] at this
      simpa [Nat.ofDigits] using this.symm
    exact hn this
  intro m n h
  by_cases hm : m = 0 <;> by_cases hn : n = 0
  · omega
  · subst hm
    have h0 : natStr 0 = ['0'] := rfl
    exact absurd (h.symm.trans h0) (fun hh => key n hn hh)
  · subst hn
    have h0 : natStr 0 = ['0'] := rfl
    exact absurd (h.trans h0) (fun hh => key m hm hh)
  · rw [natStr_eq_digits, if_neg hm, natStr_eq_digits, if_neg hn] at h
    have hmap := List.reverse_injective h
    have hdig := map_digitChar_inj
      (fun x hx => Nat.digits_lt_base (by norm_num) hx)
      (fun x hx => Nat.digits_lt_base (by norm_num) hx) hmap
    have := congrArg (Nat.ofDigits 10) hdig
    rwa [Nat.ofDigits_digits, Nat.ofDigits_digits] at this

theorem sep_append_inj {c : Char} : ∀ {xs xs' ys ys' : List Char}, c ∉ xs → c ∉ xs' →
    xs ++ c :: ys = xs' ++ c :: ys' → xs = xs' ∧ ys = ys' := by
  intro xs
  induction xs with
  | nil =>
    intro xs' ys ys' _ h2 h
    cases xs' with
    | nil => simpa using h
    | cons b u =>
      simp only [List.nil_append, List.cons_append, List.cons.injEq] at h
      exact absurd (h.1 ▸ List.mem_cons_self b u) h2
  | cons a s ih =>
    intro xs' ys ys' h1 h2 h
    cases xs' with
    | nil =>
      simp only [List.cons_append, List.nil_append, List.cons.injEq] at h
      exact absurd (h.1 ▸ List.mem_cons_self a s) (h.1 ▸ h1)
    | cons b u =>
      simp only [List.cons_append, List.cons.injEq] at h
      obtain ⟨hs, hy⟩ := ih (fun hc => h1 (List.mem_cons_of_mem a hc))
        (fun hc => h2 (List.mem_cons_of_mem b hc)) h.2
      simp [h.1, hs, hy]

theorem taskName_data (i j : Nat) :
    (taskName i j).data = 'P' :: (natStr i ++ '_' :: 'T' :: natStr j) := by
  simp [taskName, natToStr, String.data_append]

theorem tsName_data (i : Nat) : (tsName i).data = 't' :: 's' :: '_' :: natStr i := by
  simp [tsName, natToStr, String.data_append]

theorem taskName_inj {i j i' j' : Nat} (h : taskName i j = taskName i' j') :
    i = i' ∧ j = j' := by
  have hd := congrArg String.data h
  rw [taskName_data, taskName_data] at hd
  have hd' : natStr i ++ '_' :: ('T' :: natStr j) = natStr i' ++ '_' :: ('T' :: natStr j') := by
    injection hd
  obtain ⟨hA, hB⟩ :=
    sep_append_inj (underscore_not_mem_natStr i) (underscore_not_mem_natStr i') hd'
  refine ⟨natStr_inj hA, natStr_inj ?_⟩
  injection hB

theorem tsName_inj {i i' : Nat} (h : tsName i = tsName i') : i = i' := by
  have hd := congrArg String.data h
  rw [tsName_data, tsName_data] at hd
  injection hd with _ hd; injection hd with _ hd; injection hd with _ hd
  exact natStr_inj hd

theorem genSteps_nodup (T : Nat) : (genSteps T).Nodup :=
  List.Nodup.map_on (fun _ _ _ _ h => tsName_inj h) (List.nodup_range' 1 T)

theorem genSteps_length (T : Nat) : (genSteps T).length = T := by
  simp [genSteps]

theorem allTasks_genTasks (P T : Nat) :
    allTasks (genTasks P T) =
      (List.range' 1 P).flatMap fun i => (List.range' 1 T).map (taskName i) := by
  simp [allTasks, genTasks, List.flatMap, Function.comp_def]

theorem allTasks_genTasks_nodup (P T : Nat) : (allTasks (genTasks P T)).Nodup := by
  rw [allTasks_genTasks, List.flatMap]
  rw [List.nodup_flatten]
  constructor
  · intro l hl
    obtain ⟨i, _, rfl⟩ := List.mem_map.mp hl
    exact List.Nodup.map_on (fun _ _ _ _ h => (taskName_inj h).2) (List.nodup_range' 1 T)
  · rw [List.pairwise_map]
    refine (List.nodup_range' 1 P).imp ?_
    intro i i' hne x hx hx'
    obtain ⟨j, _, rfl⟩ := List.mem_map.mp hx
    obtain ⟨j', _, hEq⟩ := List.mem_map.mp hx'
    exact hne ((taskName_inj hEq.symm).1)

theorem length_flatMap_const {α β : Type} (l : List α) (f : α → List β) (T : Nat)
    (h : ∀ a ∈ l, (f a).length = T) : (l.flatMap f).length = l.length * T := by
  induction l with
  | nil => simp
  | cons a s ih =>
    have := h a (by simp)
    rw [List.flatMap_cons, List.length_append, this,
      ih (fun x hx => h x (by simp [hx])), List.length_cons]
    ring

theorem allTasks_genTasks_length (P T : Nat) : (allTasks (genTasks P T)).length = P * T := by
  rw [allTasks_genTasks, length_flatMap_const _ _ T (by intro a _; simp), List.length_range']

/-! ### The shuffle permutes its input -/

theorem getD_cons_set_perm : ∀ (xs : List String) (k : Nat), k < xs.length → ∀ x : String,
    (xs.getD k "" :: xs.set k x).Perm (x :: xs) := by
  intro xs
  induction xs with
  | nil => intro k hk; simp at hk
  | cons y ys ih =>
    intro k hk x
    cases k with
    | zero => simpa using List.Perm.swap x y ys
    | succ k =>
      have hk' : k < ys.length := by simpa using hk
      simp only [List.getD_cons_succ, List.set_cons_succ]
      exact List.Perm.trans (List.Perm.swap _ _ _)
        (List.Perm.trans ((ih k hk' x).cons y) (List.Perm.swap _ _ _))

theorem listSwap_perm : ∀ (xs : List String) (i j : Nat), i < xs.length → j < xs.length →
    (listSwap xs i j).Perm xs := by
  intro xs
  induction xs with
  | nil => intro i j hi _; simp at hi
  | cons y ys ih =>
    intro i j hi hj
    cases i with
    | zero =>
      cases j with
      | zero => simp [listSwap]
      | succ m =>
        have hm : m < ys.length := by simpa using hj
        simpa [listSwap] using getD_cons_set_perm ys m hm y
    | succ n =>
      have hn : n < ys.length := by simpa using hi
      cases j with
      | zero =>
        simpa [listSwap] using getD_cons_set_perm ys n hn y
      | succ m =>
        have hm : m < ys.length := by simpa using hj
        simpa [listSwap] using (ih n m hn hm).cons y

theorem listSwap_length (xs : List String) (i j : Nat) :
    (listSwap xs i j).length = xs.length := by
  simp [listSwap]

theorem shuffleGo_perm : ∀ (n : Nat) (xs : List String) (g : Rng), n < xs.length →
    ((shuffleGo xs n g).1).Perm xs := by
  intro n
  induction n with
  | zero => intro xs g _; simp [shuffleGo]
  | succ k ih =>
    intro xs g h
    rw [shuffleGo]
    have hj : (randint 0 (k + 1) g).1 < xs.length := by
      simp only [randint]
      have h1 : g.stream g.pos % (k + 1 + 1 - 0) < k + 1 + 1 - 0 := Nat.mod_lt _ (by omega)
      omega
    have hk : k < (listSwap xs (k + 1) (randint 0 (k + 1) g).1).length := by
      rw [listSwap_length]; omega
    exact (ih _ _ hk).trans (listSwap_perm xs (k + 1) _ h hj)

theorem shuffle_perm (xs : List String) (g : Rng) : ((shuffle xs g).1).Perm xs := by
  cases xs with
  | nil => simp [shuffle, shuffleGo]
  | cons y ys =>
    apply shuffleGo_perm
    simp

/-! ### Rewards -/

theorem gen_rewards_cons_true (a : String) (s : List String) (g : Rng) :
    gen_rewards true (a :: s) g =
      ((a, 1) :: (gen_rewards true s g).1, (gen_rewards true s g).2) := by
  simp [gen_rewards]

theorem gen_rewards_cons_false (a : String) (s : List String) (g : Rng) :
    gen_rewards false (a :: s) g =
      ((a, (randint 50 100 g).1) :: (gen_rewards false s (randint 50 100 g).2).1,
        (gen_rewards false s (randint 50 100 g).2).2) := by
  simp [gen_rewards]

theorem gen_rewards_keys (u : Bool) : ∀ (l : List String) (g : Rng),
    ((gen_rewards u l g).1).map Prod.fst = l := by
  intro l
  induction l with
  | nil => intro g; cases u <;> simp [gen_rewards]
  | cons a s ih =>
    intro g
    cases u
    · rw [gen_rewards_cons_false]
      simp [ih]
    · rw [gen_rewards_cons_true]
      simp [ih]

theorem gen_rewards_uniform_val : ∀ (l : List String) (g : Rng),
    ∀ pr ∈ (gen_rewards true l g).1, pr.2 = 1 := by
  intro l
  induction l with
  | nil => intro g pr h; simp [gen_rewards] at h
  | cons a s ih =>
    intro g pr h
    rw [gen_rewards_cons_true] at h
    rcases List.mem_cons.mp h with rfl | h'
    · rfl
    · exact ih _ pr h'

theorem randint_ge (lo hi : Nat) (g : Rng) : lo ≤ (randint lo hi g).1 := by
  simp [randint]

theorem randint_le (lo hi : Nat) (g : Rng) (h : lo ≤ hi) : (randint lo hi g).1 ≤ hi := by
  simp only [randint]
  have := Nat.mod_lt (g.stream g.pos) (show 0 < hi + 1 - lo by omega)
  omega

theorem gen_rewards_range : ∀ (l : List String) (g : Rng),
    ∀ pr ∈ (gen_rewards false l g).1, 50 ≤ pr.2 ∧ pr.2 ≤ 100 := by
  intro l
  induction l with
  | nil => intro g pr h; simp [gen_rewards] at h
  | cons a s ih =>
    intro g pr h
    rw [gen_rewards_cons_false] at h
    rcases List.mem_cons.mp h with rfl | h'
    · exact ⟨randint_ge 50 100 g, randint_le 50 100 g (by omega)⟩
    · exact ih _ pr h'

/-! ### Edge generation: well-formedness -/

theorem edge_inner_props (t0 : String) (pop : List String) :
    ∀ (m r : Nat) (g : Rng),
      (∀ e ∈ (edge_inner t0 pop m r g).1,
          e.1 = t0 ∧ ∃ i, r ≤ i ∧ i + 1 < pop.length ∧ e.2 = pop.getD i "")
      ∧ (edge_inner t0 pop m r g).1.length ≤ m
      ∧ (pop.Nodup → ((edge_inner t0 pop m r g).1.map Prod.snd).Nodup) := by
  intro m
  induction m with
  | zero => intro r g; simp [edge_inner]
  | succ m ih =>
    intro r g
    simp only [edge_inner]
    by_cases hlen : pop.length > r + 1
    · rw [if_pos hlen]
      obtain ⟨ihA, ihB, ihC⟩ := ih (r + 1) (randint 0 3 g).2
      by_cases hc1 : (randint 0 3 g).1 > 1
      · rw [if_pos hc1]
        refine ⟨?_, ?_, ?_⟩
        · intro e he
          rcases List.mem_cons.mp he with rfl | he'
          · exact ⟨rfl, r, Nat.le_refl r, hlen, rfl⟩
          · obtain ⟨h1, i, hi, hilen, h2⟩ := ihA e he'
            exact ⟨h1, i, by omega, hilen, h2⟩
        · simpa using Nat.succ_le_succ ihB
        · intro hnd
          rw [List.map_cons, List.nodup_cons]
          refine ⟨?_, ihC hnd⟩
          intro hmem
          obtain ⟨e, he, hsnd⟩ := List.mem_map.mp hmem
          obtain ⟨_, i, hi, hilen, h2⟩ := ihA e he
          rw [h2] at hsnd
          have hiL : i < pop.length := by omega
          have hrL : r < pop.length := by omega
          rw [List.getD_eq_getElem pop "" hiL, List.getD_eq_getElem pop "" hrL] at hsnd
          have := (hnd.getElem_inj_iff).mp hsnd
          omega
      · rw [if_neg hc1]
        refine ⟨?_, by simpa using Nat.le_trans ihB (Nat.le_succ m), by simpa using ihC⟩
        intro e he
        obtain ⟨h1, i, hi, hilen, h2⟩ := ihA e he
        exact ⟨h1, i, by omega, hilen, h2⟩
    · rw [if_neg hlen]
      obtain ⟨ihA, ihB, ihC⟩ := ih (r + 1) g
      refine ⟨?_, by omega, ihC⟩
      intro e he
      obtain ⟨h1, i, hi, hilen, h2⟩ := ihA e he
      exact ⟨h1, i, by omega, hilen, h2⟩

theorem gen_edges_props : ∀ (pool : List String) (g : Rng), pool.Nodup →
    (∀ e ∈ (gen_edges pool g).1, e.1 ∈ pool ∧ e.2 ∈ pool ∧ e.1 ≠ e.2)
    ∧ (gen_edges pool g).1.Nodup
    ∧ ∀ v : String, ((gen_edges pool g).1.countP (fun e => e.1 == v)) ≤ 5 := by
  intro pool
  induction pool with
  | nil => intro g _; simp [gen_edges]
  | cons t0 rest ih =>
    intro g hnd
    cases rest with
    | nil => simp [gen_edges]
    | cons r1 rs =>
      simp only [gen_edges]
      have hT0 : t0 ∉ (r1 :: rs) := (List.nodup_cons.mp hnd).1
      have hndR : (r1 :: rs).Nodup := (List.nodup_cons.mp hnd).2
      obtain ⟨hA, hB, hC⟩ :=
        edge_inner_props t0 (r1 :: rs) (randint 1 5 g).1 0 (randint 1 5 g).2
      have hk5 : (randint 1 5 g).1 ≤ 5 := randint_le 1 5 g (by omega)
      set p := edge_inner t0 (r1 :: rs) (randint 1 5 g).1 0 (randint 1 5 g).2 with hp
      obtain ⟨ihA, ihB, ihC⟩ := ih p.2 hndR
      set q := gen_edges (r1 :: rs) p.2 with hq
      have hPfst : ∀ e ∈ p.1, e.1 = t0 := fun e he => (hA e he).1
      have hPsnd : ∀ e ∈ p.1, e.2 ∈ (r1 :: rs) := by
        intro e he
        obtain ⟨_, i, _, hilen, h2⟩ := hA e he
        have hiL : i < (r1 :: rs).length := by omega
        rw [h2, List.getD_eq_getElem _ "" hiL]
        exact List.getElem_mem hiL
      refine ⟨?_, ?_, ?_⟩
      · intro e he
        rcases List.mem_append.mp he with he' | he'
        · have h1 := hPfst e he'
          have h2 := hPsnd e he'
          refine ⟨by simp [h1], List.mem_cons_of_mem _ h2, ?_⟩
          rw [h1]
          intro hEq
          exact hT0 (hEq ▸ h2)
        · obtain ⟨m1, m2, m3⟩ := ihA e he'
          exact ⟨List.mem_cons_of_mem _ m1, List.mem_cons_of_mem _ m2, m3⟩
      · refine List.Nodup.append (List.Nodup.of_map Prod.snd (hC hndR)) ihB ?_
        rw [List.disjoint_left]
        intro e heP heQ
        have h1 := hPfst e heP
        have h2 := (ihA e heQ).1
        exact hT0 (h1 ▸ h2)
      · intro v
        rw [List.countP_append]
        by_cases hv : v = t0
        · have hq0 : q.1.countP (fun e => e.1 == v) = 0 := by
            rw [List.countP_eq_zero]
            intro e he
            simp only [beq_iff_eq]
            intro hEq
            exact hT0 (hv ▸ hEq ▸ (ihA e he).1)
          have hple : p.1.countP (fun e => e.1 == v) ≤ 5 :=
            Nat.le_trans (List.countP_le_length _) (Nat.le_trans hB hk5)
          omega
        · have hp0 : p.1.countP (fun e => e.1 == v) = 0 := by
            rw [List.countP_eq_zero]
            intro e he
            simp only [beq_iff_eq]
            intro hEq
            exact hv (hEq ▸ (hPfst e he))
          have := ihC v
          omega

/-! ### The spec's edge-generation algorithm refines to the code's -/

theorem coinSpec_true_iff (g : Rng) : (coinSpec g).1 = true ↔ (randint 0 3 g).1 > 1 := by
  have hle : (randint 0 3 g).1 ≤ 3 := randint_le 0 3 g (by omega)
  simp only [coinSpec, decide_eq_true_eq]
  omega

theorem coinSpec_rng (g : Rng) : (coinSpec g).2 = (randint 0 3 g).2 := rfl

theorem edgeInnerSpec_eq (t0 : String) (pool : List String) :
    ∀ (m i : Nat) (g : Rng), edgeInnerSpec t0 pool m i g = edge_inner t0 pool m i g := by
  intro m
  induction m with
  | zero => intro i g; rfl
  | succ m ih =>
    intro i g
    simp only [edgeInnerSpec, edge_inner]
    by_cases h : pool.length > i + 1
    · rw [if_pos (show i + 2 ≤ pool.length by omega), if_pos h]
      by_cases hc : (randint 0 3 g).1 > 1
      · rw [if_pos ((coinSpec_true_iff g).mpr hc), if_pos hc, coinSpec_rng, ih]
      · rw [if_neg (fun hh => hc ((coinSpec_true_iff g).mp hh)), if_neg hc, coinSpec_rng, ih]
    · rw [if_neg (show ¬ i + 2 ≤ pool.length by omega), if_neg h, ih]

theorem edgeLoopSpec_eq : ∀ (pool : List String) (g : Rng),
    edgeLoopSpec pool g = gen_edges pool g := by
  intro pool
  induction pool with
  | nil => intro g; rfl
  | cons t0 rest ih =>
    intro g
    cases rest with
    | nil => rfl
    | cons r1 rs => simp only [edgeLoopSpec, gen_edges, edgeInnerSpec_eq, ih]

/-! ### Structure of the formulated model -/

theorem edgeKeysOk_true_iff (all_tasks time_steps : List String) (e : String × String)
    (t : String) : edgeKeysOk all_tasks time_steps e t = true ↔
      (e.2 ∈ all_tasks ∧ t ∈ time_steps) ∧ (e.1 ∈ all_tasks ∧ t ∈ time_steps) := by
  simp [edgeKeysOk]

theorem edgeCs_ok_map (all ts : List String) :
    ∀ (pairs : List ((String × String) × String)),
      (∀ pr ∈ pairs, edgeKeysOk all ts pr.1 pr.2 = true) →
      edgeCs all ts pairs = Except.ok (pairs.map fun pr => edgeC pr.1 pr.2) := by
  intro pairs
  induction pairs with
  | nil => intro _; rfl
  | cons pr rest ih =>
    intro h
    obtain ⟨e, t⟩ := pr
    simp only [edgeCs]
    rw [if_pos (h (e, t) (by simp)), ih (fun x hx => h x (by simp [hx]))]
    simp

theorem edgeCs_ok_elim (all ts : List String) :
    ∀ (pairs : List ((String × String) × String)) (cs : List Constr),
      edgeCs all ts pairs = Except.ok cs →
      cs = pairs.map (fun pr => edgeC pr.1 pr.2) ∧
        ∀ pr ∈ pairs, edgeKeysOk all ts pr.1 pr.2 = true := by
  intro pairs
  induction pairs with
  | nil =>
    intro cs h
    simp only [edgeCs, Except.ok.injEq] at h
    simp [h.symm]
  | cons pr rest ih =>
    intro cs h
    obtain ⟨e, t⟩ := pr
    simp only [edgeCs] at h
    by_cases hk : edgeKeysOk all ts e t = true
    · rw [if_pos hk] at h
      cases hrec : edgeCs all ts rest with
      | ok cs' =>
        rw [hrec] at h
        simp only [Except.ok.injEq] at h
        obtain ⟨h1, h2⟩ := ih cs' hrec
        subst h
        constructor
        · simp [h1]
        · intro x hx
          rcases List.mem_cons.mp hx with rfl | hx'
          · exact hk
          · exact h2 x hx'
      | error s => rw [hrec] at h; simp at h
    · rw [if_neg hk] at h
      simp at h

theorem edgeCs_error_of_bad (all ts : List String) :
    ∀ (pairs : List ((String × String) × String)),
      (∃ pr ∈ pairs, ¬ edgeKeysOk all ts pr.1 pr.2 = true) →
      edgeCs all ts pairs = Except.error "KeyError" := by
  intro pairs
  induction pairs with
  | nil => intro h; simp at h
  | cons pr rest ih =>
    intro h
    obtain ⟨e, t⟩ := pr
    simp only [edgeCs]
    by_cases hk : edgeKeysOk all ts (e, t).1 (e, t).2 = true
    · rw [if_pos hk]
      obtain ⟨x, hx, hbad⟩ := h
      rcases List.mem_cons.mp hx with rfl | hx'
      · exact absurd hk hbad
      · rw [ih ⟨x, hx', hbad⟩]
    · rw [if_neg hk]

theorem lookup_some_of_mem_keys : ∀ (rs : List (String × Nat)) (v : String),
    v ∈ rs.map Prod.fst → ∃ w, rs.lookup v = some w := by
  intro rs
  induction rs with
  | nil => intro v h; simp at h
  | cons pr rest ih =>
    intro v h
    obtain ⟨a, b⟩ := pr
    by_cases hv : v = a
    · exact ⟨b, by simp [List.lookup, hv]⟩
    · have hne : (v == a) = false := beq_eq_false_iff_ne.mpr hv
      have hv' : v ∈ rest.map Prod.fst := by
        simp only [List.map_cons, List.mem_cons] at h
        rcases h with h' | h'
        · exact absurd h' hv
        · exact h'
      obtain ⟨w, hw⟩ := ih v hv'
      exact ⟨w, by simp [List.lookup, hne, hw]⟩

theorem mem_product_iff {α β : Type} {l₁ : List α} {l₂ : List β} {x : α} {y : β} :
    (x, y) ∈ l₁.product l₂ ↔ x ∈ l₁ ∧ y ∈ l₂ :=
  List.mem_product

theorem objTermsGo_some (rewards : List (String × Nat)) :
    ∀ (pairs : List (String × String)),
      (∀ vt ∈ pairs, ∃ w, rewards.lookup vt.1 = some w) →
      ∃ obj, objTermsGo rewards pairs = some obj := by
  intro pairs
  induction pairs with
  | nil => intro _; exact ⟨[], rfl⟩
  | cons vt rest ih =>
    intro h
    obtain ⟨w, hw⟩ := h vt (by simp)
    obtain ⟨l, hl⟩ := ih (fun x hx => h x (by simp [hx]))
    exact ⟨((w : Int), Var.activ vt.1 vt.2) :: l, by simp [objTermsGo, hw, hl]⟩

theorem objTerms_some (all ts : List String) (rewards : List (String × Nat))
    (h : ∀ v ∈ all, ∃ w, rewards.lookup v = some w) :
    ∃ obj, objTerms all ts rewards = some obj := by
  apply objTermsGo_some
  intro vt hvt
  obtain ⟨x, y⟩ := vt
  exact h x (mem_product_iff.mp hvt).1

theorem model_isg_ok_elim {ts : List String} {tasks : List (String × List String)}
    {rewards : List (String × Nat)} {edges : List (String × String)} {m : IPModel}
    (h : model_isg ts tasks rewards edges = Except.ok m) :
    m.vars = mkVars (allTasks tasks) ts ∧
    m.constrs = taskOnceCs (allTasks tasks) ts ++ playerSlotCs tasks ts ++
      linkCs (allTasks tasks) ts ++
      (edgePairs edges ts).map (fun pr => edgeC pr.1 pr.2) ∧
    objTerms (allTasks tasks) ts rewards = some m.objective ∧
    ∀ pr ∈ edgePairs edges ts, edgeKeysOk (allTasks tasks) ts pr.1 pr.2 = true := by
  simp only [model_isg] at h
  cases hE : edgeCs (allTasks tasks) ts (edgePairs edges ts) with
  | error s => rw [hE] at h; simp at h
  | ok cs4 =>
    rw [hE] at h
    cases hO : objTerms (allTasks tasks) ts rewards with
    | none => rw [hO] at h; simp at h
    | some obj =>
      rw [hO] at h
      simp only [Except.ok.injEq] at h
      obtain ⟨h1, h2⟩ := edgeCs_ok_elim _ _ _ _ hE
      subst h
      exact ⟨rfl, by simp [h1], rfl, h2⟩

theorem model_isg_ok_of (ts : List String) (tasks : List (String × List String))
    (rewards : List (String × Nat)) (edges : List (String × String))
    (hEdges : ∀ e ∈ edges, e.1 ∈ allTasks tasks ∧ e.2 ∈ allTasks tasks)
    (hRew : ∀ v ∈ allTasks tasks, ∃ w, rewards.lookup v = some w) :
    ∃ m, model_isg ts tasks rewards edges = Except.ok m := by
  have hPairs : ∀ pr ∈ edgePairs edges ts,
      edgeKeysOk (allTasks tasks) ts pr.1 pr.2 = true := by
    intro pr hpr
    simp only [edgePairs, List.mem_flatMap, List.mem_map] at hpr
    obtain ⟨e, he, t, ht, rfl⟩ := hpr
    rw [edgeKeysOk_true_iff]
    exact ⟨⟨(hEdges e he).2, ht⟩, ⟨(hEdges e he).1, ht⟩⟩
  obtain ⟨obj, hobj⟩ := objTerms_some (allTasks tasks) ts rewards hRew
  refine ⟨⟨mkVars (allTasks tasks) ts,
    taskOnceCs (allTasks tasks) ts ++ playerSlotCs tasks ts ++ linkCs (allTasks tasks) ts ++
      (edgePairs edges ts).map (fun pr => edgeC pr.1 pr.2), obj⟩, ?_⟩
  simp only [model_isg]
  rw [edgeCs_ok_map _ _ _ hPairs, hobj]

/-! ### Mentions of active variables in the constraint families -/

theorem not_mentions_activ_taskOnceCs {all ts : List String} {c : Constr}
    (hc : c ∈ taskOnceCs all ts) (v t : String) : ¬ Mentions c (Var.activ v t) := by
  obtain ⟨w, _, rfl⟩ := List.mem_map.mp hc
  intro hm
  rcases hm with ⟨k, hk⟩ | ⟨k, hk⟩
  · obtain ⟨u, _, hEq⟩ := List.mem_map.mp hk
    simp at hEq
  · simp at hk

theorem not_mentions_activ_playerSlotCs {tasks : List (String × List String)}
    {ts : List String} {c : Constr} (hc : c ∈ playerSlotCs tasks ts) (v t : String) :
    ¬ Mentions c (Var.activ v t) := by
  rw [playerSlotCs, List.mem_flatMap] at hc
  obtain ⟨p, _, hc'⟩ := hc
  obtain ⟨u, _, rfl⟩ := List.mem_map.mp hc'
  intro hm
  rcases hm with ⟨k, hk⟩ | ⟨k, hk⟩
  · obtain ⟨w, _, hEq⟩ := List.mem_map.mp hk
    simp at hEq
  · simp at hk

theorem mentions_linkC_activ {ts : List String} {v t' : String} {i : Nat} {w u : String}
    (hm : Mentions (linkC ts v i t') (Var.activ w u)) : w = v ∧ u = t' := by
  rcases hm with ⟨k, hk⟩ | ⟨k, hk⟩
  · obtain ⟨x, _, hEq⟩ := List.mem_map.mp hk
    simp at hEq
  · simp only [linkC, List.mem_singleton, Prod.mk.injEq, Var.activ.injEq] at hk
    exact hk.2

theorem mentions_edgeC_activ {e : String × String} {s : String} {w u : String}
    (hm : Mentions (edgeC e s) (Var.activ w u)) : u = s := by
  rcases hm with ⟨k, hk⟩ | ⟨k, hk⟩ <;>
    simp only [edgeC, List.mem_singleton, Prod.mk.injEq, Var.activ.injEq] at hk <;>
    exact hk.2.2

theorem mem_linkCs_elim {all ts : List String} {c : Constr} (hc : c ∈ linkCs all ts) :
    ∃ v i t', v ∈ all ∧ (i, t') ∈ ts.enum ∧ c = linkC ts v i t' := by
  rw [linkCs, List.mem_flatMap] at hc
  obtain ⟨v, hv, hc'⟩ := hc
  obtain ⟨it, hit, rfl⟩ := List.mem_map.mp hc'
  exact ⟨v, it.1, it.2, hv, by simpa using hit, rfl⟩

theorem model_activ_same_slot {ts : List String} {tasks : List (String × List String)}
    {rewards : List (String × Nat)} {edges : List (String × String)} {m : IPModel}
    (h : model_isg ts tasks rewards edges = Except.ok m) :
    ∀ c ∈ m.constrs, ∀ v t v' t', Mentions c (Var.activ v t) →
      Mentions c (Var.activ v' t') → t = t' := by
  obtain ⟨_, hcs, _, _⟩ := model_isg_ok_elim h
  intro c hc v t v' t' h1 h2
  rw [hcs] at hc
  rcases List.mem_append.mp hc with hc' | hcE
  · rcases List.mem_append.mp hc' with hc'' | hcL
    · rcases List.mem_append.mp hc'' with hc1 | hc2
      · exact absurd h1 (not_mentions_activ_taskOnceCs hc1 v t)
      · exact absurd h1 (not_mentions_activ_playerSlotCs hc2 v t)
    · obtain ⟨w, i, t'', _, _, rfl⟩ := mem_linkCs_elim hcL
      rw [(mentions_linkC_activ h1).2, (mentions_linkC_activ h2).2]
  · obtain ⟨pr, _, rfl⟩ := List.mem_map.mp hcE
    rw [mentions_edgeC_activ h1, mentions_edgeC_activ h2]

/-! ### Switching all activity off preserves feasibility -/

theorem bval_nonneg (b : Bool) : 0 ≤ bval b := by cases b <;> simp [bval]

theorem bval_le_one (b : Bool) : bval b ≤ 1 := by cases b <;> simp [bval]

theorem evalExpr_zeroActive_sched (a : Var → Bool) (e : LinExpr)
    (h : ∀ kv ∈ e.terms, ∃ v t, kv.2 = Var.sched v t) :
    evalExpr (zeroActive a) e = evalExpr a e := by
  unfold evalExpr
  have hmap : (e.terms.map fun cv => cv.1 * bval (zeroActive a cv.2)) =
      e.terms.map fun cv => cv.1 * bval (a cv.2) := by
    apply List.map_congr_left
    intro kv hkv
    obtain ⟨v, t, hv⟩ := h kv hkv
    rw [hv]
    rfl
  rw [hmap]

theorem evalExpr_nonneg (a : Var → Bool) (e : LinExpr) (hconst : 0 ≤ e.const)
    (h : ∀ kv ∈ e.terms, 0 ≤ kv.1) : 0 ≤ evalExpr a e := by
  unfold evalExpr
  have : 0 ≤ (e.terms.map fun cv => cv.1 * bval (a cv.2)).sum := by
    apply List.sum_nonneg
    intro x hx
    obtain ⟨kv, hkv, rfl⟩ := List.mem_map.mp hx
    exact mul_nonneg (h kv hkv) (bval_nonneg _)
  omega

theorem feasB_zeroActive {ts : List String} {tasks : List (String × List String)}
    {rewards : List (String × Nat)} {edges : List (String × String)} {m : IPModel}
    (h : model_isg ts tasks rewards edges = Except.ok m) (a : Var → Bool)
    (ha : feasB m a = true) : feasB m (zeroActive a) = true := by
  obtain ⟨_, hcs, _, _⟩ := model_isg_ok_elim h
  rw [feasB, List.all_eq_true] at ha ⊢
  intro c hc
  have haC := ha c hc
  rw [hcs] at hc
  rcases List.mem_append.mp hc with hc' | hcE
  · rcases List.mem_append.mp hc' with hc'' | hcL
    · have hsched : ∀ cc, cc ∈ taskOnceCs (allTasks tasks) ts ∨
          cc ∈ playerSlotCs tasks ts →
          (∀ kv ∈ cc.lhs.terms, ∃ v t, kv.2 = Var.sched v t) ∧ cc.rhs.terms = [] := by
        intro cc hcc
        rcases hcc with hcc | hcc
        · obtain ⟨w, _, rfl⟩ := List.mem_map.mp hcc
          refine ⟨?_, rfl⟩
          intro kv hkv
          obtain ⟨u, _, hEq⟩ := List.mem_map.mp hkv
          exact ⟨w, u, by rw [hEq.symm]⟩
        · rw [playerSlotCs, List.mem_flatMap] at hcc
          obtain ⟨p, _, hcc'⟩ := hcc
          obtain ⟨u, _, rfl⟩ := List.mem_map.mp hcc'
          refine ⟨?_, rfl⟩
          intro kv hkv
          obtain ⟨w, _, hEq⟩ := List.mem_map.mp hkv
          exact ⟨w, u, by rw [hEq.symm]⟩
      obtain ⟨hL, hR⟩ := hsched c (by
        rcases List.mem_append.mp hc'' with h1 | h2
        · exact Or.inl h1
        · exact Or.inr h2)
      have hlhs := evalExpr_zeroActive_sched a c.lhs hL
      have hrhs : evalExpr (zeroActive a) c.rhs = evalExpr a c.rhs := by
        simp [evalExpr, hR]
      unfold satC at haC ⊢
      rw [hlhs, hrhs]
      exact haC
    · obtain ⟨w, i, t'', hw, hit, rfl⟩ := mem_linkCs_elim hcL
      unfold satC linkC
      simp only [decide_eq_true_eq]
      have hrhs0 : evalExpr (zeroActive a)
          (⟨[((1 : Int), Var.activ w t'')], 0⟩ : LinExpr) = 0 := by
        simp [evalExpr, zeroActive, bval]
      have hlhs0 : 0 ≤ evalExpr (zeroActive a)
          (⟨(ts.take (i + 1)).map fun u => ((1 : Int), Var.sched w u), 0⟩ : LinExpr) := by
        apply evalExpr_nonneg
        · simp
        · intro kv hkv
          obtain ⟨u, _, hEq⟩ := List.mem_map.mp hkv
          rw [hEq.symm]
          norm_num
      exact le_trans (le_of_eq hrhs0) hlhs0
  · obtain ⟨pr, _, rfl⟩ := List.mem_map.mp hcE
    unfold satC edgeC
    simp [evalExpr, zeroActive, bval]

/-! ### Membership of the edge and linkage constraints in the model -/

theorem mem_enum_getD {l : List String} {i : Nat} (hi : i < l.length) :
    (i, l.getD i "") ∈ l.enum := by
  rw [List.mk_mem_enum_iff_getElem?, List.getD_eq_getElem l "" hi]
  exact List.getElem?_eq_getElem hi

theorem edgeC_mem_constrs {ts : List String} {tasks : List (String × List String)}
    {rewards : List (String × Nat)} {edges : List (String × String)} {m : IPModel}
    (h : model_isg ts tasks rewards edges = Except.ok m)
    {e : String × String} (he : e ∈ edges) {t : String} (ht : t ∈ ts) :
    edgeC e t ∈ m.constrs := by
  obtain ⟨_, hcs, _, _⟩ := model_isg_ok_elim h
  rw [hcs]
  refine List.mem_append_right _ ?_
  rw [List.mem_map]
  refine ⟨(e, t), ?_, rfl⟩
  rw [edgePairs, List.mem_flatMap]
  exact ⟨e, he, by simp [ht]⟩

theorem linkC_mem_constrs {ts : List String} {tasks : List (String × List String)}
    {rewards : List (String × Nat)} {edges : List (String × String)} {m : IPModel}
    (h : model_isg ts tasks rewards edges = Except.ok m)
    {v : String} (hv : v ∈ allTasks tasks) {i : Nat} (hi : i < ts.length) :
    linkC ts v i (ts.getD i "") ∈ m.constrs := by
  obtain ⟨_, hcs, _, _⟩ := model_isg_ok_elim h
  rw [hcs]
  refine List.mem_append_left _ (List.mem_append_right _ ?_)
  rw [linkCs, List.mem_flatMap]
  refine ⟨v, hv, ?_⟩
  rw [List.mem_map]
  exact ⟨(i, ts.getD i ""), mem_enum_getD hi, rfl⟩

/-! ### The variable set of the model -/

theorem product_length (l₁ l₂ : List String) :
    (l₁.product l₂).length = l₁.length * l₂.length :=
  List.length_product l₁ l₂

theorem mkVars_length (all ts : List String) :
    (mkVars all ts).length = 2 * (all.length * ts.length) := by
  rw [mkVars,
    length_flatMap_const (all.product ts) _ 2 (by intro a _; rfl), product_length]
  ring

theorem mem_mkVars_sched {all ts : List String} {v t : String} (hv : v ∈ all)
    (ht : t ∈ ts) : Var.sched v t ∈ mkVars all ts := by
  rw [mkVars, List.mem_flatMap]
  exact ⟨(v, t), mem_product_iff.mpr ⟨hv, ht⟩, by simp⟩

theorem mem_mkVars_activ {all ts : List String} {v t : String} (hv : v ∈ all)
    (ht : t ∈ ts) : Var.activ v t ∈ mkVars all ts := by
  rw [mkVars, List.mem_flatMap]
  exact ⟨(v, t), mem_product_iff.mpr ⟨hv, ht⟩, by simp⟩

theorem mkVars_elim {all ts : List String} {x : Var} (hx : x ∈ mkVars all ts) :
    ∃ v, v ∈ all ∧ ∃ t, t ∈ ts ∧ (x = Var.sched v t ∨ x = Var.activ v t) := by
  rw [mkVars, List.mem_flatMap] at hx
  obtain ⟨vt, hvt, hx'⟩ := hx
  obtain ⟨v, t⟩ := vt
  obtain ⟨h1, h2⟩ := mem_product_iff.mp hvt
  rcases List.mem_cons.mp hx' with rfl | hx''
  · exact ⟨v, h1, t, h2, Or.inl rfl⟩
  · rcases List.mem_cons.mp hx'' with rfl | hx3
    · exact ⟨v, h1, t, h2, Or.inr rfl⟩
    · simp at hx3

theorem mkVars_nodup (all ts : List String) (hall : all.Nodup) (hts : ts.Nodup) :
    (mkVars all ts).Nodup := by
  rw [mkVars, List.flatMap, List.nodup_flatten]
  constructor
  · intro l hl
    obtain ⟨vt, _, rfl⟩ := List.mem_map.mp hl
    simp
  · rw [List.pairwise_map]
    refine (List.Nodup.product hall hts).imp ?_
    intro vt vt' hne x hx hx'
    simp only [List.mem_cons, List.not_mem_nil, or_false] at hx hx'
    apply hne
    rcases hx with rfl | rfl <;> rcases hx' with h' | h'
    · have hvv := Var.sched.inj h'
      exact Prod.ext hvv.1 hvv.2
    · exact Var.noConfusion h'
    · exact Var.noConfusion h'
    · have hvv := Var.activ.inj h'
      exact Prod.ext hvv.1 hvv.2

/-! ### Properties of generated instances -/

theorem gen_instance_time_steps (p t : Nat) (u : Bool) (g : Rng) :
    (gen_instance p t u g).1.time_steps = genSteps t := rfl

theorem gen_instance_tasks (p t : Nat) (u : Bool) (g : Rng) :
    (gen_instance p t u g).1.tasks = genTasks p t := rfl

theorem gen_instance_rewards_eq (p t : Nat) (u : Bool) (g : Rng) :
    (gen_instance p t u g).1.rewards = (gen_rewards u (allTasks (genTasks p t)) g).1 := rfl

theorem gen_instance_edges_eq (p t : Nat) (u : Bool) (g : Rng) :
    (gen_instance p t u g).1.edges =
      (gen_edges
        (shuffle (allTasks (genTasks p t)) (gen_rewards u (allTasks (genTasks p t)) g).2).1
        (shuffle (allTasks (genTasks p t)) (gen_rewards u (allTasks (genTasks p t)) g).2).2).1 :=
  rfl

theorem gen_instance_rewards_keys (p t : Nat) (u : Bool) (g : Rng) :
    ((gen_instance p t u g).1.rewards).map Prod.fst = allTasks (genTasks p t) := by
  rw [gen_instance_rewards_eq, gen_rewards_keys]

theorem gen_instance_edges_props (p t : Nat) (u : Bool) (g : Rng) :
    (∀ e ∈ (gen_instance p t u g).1.edges,
        e.1 ∈ allTasks (genTasks p t) ∧ e.2 ∈ allTasks (genTasks p t) ∧ e.1 ≠ e.2)
    ∧ ((gen_instance p t u g).1.edges).Nodup
    ∧ ∀ v : String, ((gen_instance p t u g).1.edges).countP (fun e => e.1 == v) ≤ 5 := by
  rw [gen_instance_edges_eq]
  have hperm := shuffle_perm (allTasks (genTasks p t)) (gen_rewards u (allTasks (genTasks p t)) g).2
  have hnd : (shuffle (allTasks (genTasks p t))
      (gen_rewards u (allTasks (genTasks p t)) g).2).1.Nodup :=
    hperm.symm.nodup (allTasks_genTasks_nodup p t)
  obtain ⟨hA, hB, hC⟩ := gen_edges_props _
    (shuffle (allTasks (genTasks p t)) (gen_rewards u (allTasks (genTasks p t)) g).2).2 hnd
  refine ⟨?_, hB, hC⟩
  intro e he
  obtain ⟨h1, h2, h3⟩ := hA e he
  exact ⟨hperm.mem_iff.mp h1, hperm.mem_iff.mp h2, h3⟩

theorem gen_model_ok (p t : Nat) (u : Bool) (g : Rng) :
    ∃ m, model_isg (gen_instance p t u g).1.time_steps (gen_instance p t u g).1.tasks
      (gen_instance p t u g).1.rewards (gen_instance p t u g).1.edges = Except.ok m := by
  rw [gen_instance_time_steps, gen_instance_tasks]
  apply model_isg_ok_of
  · intro e he
    have hw := (gen_instance_edges_props p t u g).1 e he
    exact ⟨hw.1, hw.2.1⟩
  · intro v hv
    apply lookup_some_of_mem_keys
    rw [show (gen_instance p t u g).1.rewards.map Prod.fst = allTasks (genTasks p t) from
      gen_instance_rewards_keys p t u g]
    exact hv

/-! ### The event trace of a formulation run -/

theorem edgeEvents_error_of_bad (all ts : List String) :
    ∀ (pairs : List ((String × String) × String)),
      (∃ pr ∈ pairs, ¬ edgeKeysOk all ts pr.1 pr.2 = true) →
      Event.keyError ∈ edgeEvents all ts pairs := by
  intro pairs
  induction pairs with
  | nil => intro h; simp at h
  | cons pr rest ih =>
    intro h
    obtain ⟨e, t⟩ := pr
    simp only [edgeEvents]
    by_cases hk : edgeKeysOk all ts (e, t).1 (e, t).2 = true
    · rw [if_pos hk]
      obtain ⟨x, hx, hbad⟩ := h
      rcases List.mem_cons.mp hx with rfl | hx'
      · exact absurd hk hbad
      · exact List.mem_cons_of_mem _ (ih ⟨x, hx', hbad⟩)
    · rw [if_neg hk]
      simp

theorem model_events_error (ts : List String) (tasks : List (String × List String))
    (rewards : List (String × Nat)) (edges : List (String × String))
    (hbad : ∃ pr ∈ edgePairs edges ts, ¬ edgeKeysOk (allTasks tasks) ts pr.1 pr.2 = true) :
    model_events ts tasks rewards edges =
      (mkVars (allTasks tasks) ts).map Event.varCreated ++
      ((taskOnceCs (allTasks tasks) ts).map Event.constrAdded ++
        ((playerSlotCs tasks ts).map Event.constrAdded ++
          ((linkCs (allTasks tasks) ts).map Event.constrAdded ++
            edgeEvents (allTasks tasks) ts (edgePairs edges ts)))) := by
  have hev := edgeEvents_error_of_bad (allTasks tasks) ts (edgePairs edges ts) hbad
  simp only [model_events]
  rw [if_pos hev]
  simp [List.append_assoc]

theorem bad_pair_of_bad_edge {ts : List String} {tasks : List (String × List String)}
    {edges : List (String × String)}
    (hbad : ∃ e ∈ edges, e.1 ∉ allTasks tasks ∨ e.2 ∉ allTasks tasks) (hts : ts ≠ []) :
    ∃ pr ∈ edgePairs edges ts, ¬ edgeKeysOk (allTasks tasks) ts pr.1 pr.2 = true := by
  obtain ⟨e, he, hor⟩ := hbad
  obtain ⟨t, ht⟩ := List.exists_mem_of_ne_nil ts hts
  refine ⟨(e, t), ?_, ?_⟩
  · rw [edgePairs, List.mem_flatMap]
    exact ⟨e, he, by simp [ht]⟩
  · intro hk
    rw [edgeKeysOk_true_iff] at hk
    rcases hor with h1 | h2
    · exact h1 hk.2.1
    · exact h2 hk.1.1

theorem model_isg_error_of_bad_edge (ts : List String)
    (tasks : List (String × List String)) (rewards : List (String × Nat))
    (edges : List (String × String))
    (hbad : ∃ e ∈ edges, e.1 ∉ allTasks tasks ∨ e.2 ∉ allTasks tasks) (hts : ts ≠ []) :
    model_isg ts tasks rewards edges = Except.error "KeyError" := by
  simp only [model_isg]
  rw [edgeCs_error_of_bad (allTasks tasks) ts (edgePairs edges ts)
    (bad_pair_of_bad_edge hbad hts)]

/-! ### The 2-player 2-task instance: optimal value -/

theorem m22_upper (a : Var → Bool) (ha : feasB m22 a = true) :
    objVal a m22.objective ≤ 6 := by
  simp only [feasB] at ha
  have hall := List.all_eq_true.mp ha
  have h1 := hall _ (show linkC ts22 "P1_T1" 0 "ts_1" ∈ m22.constrs by decide)
  have h2 := hall _ (show linkC ts22 "P1_T2" 0 "ts_1" ∈ m22.constrs by decide)
  have h3 := hall _ (show linkC ts22 "P2_T1" 0 "ts_1" ∈ m22.constrs by decide)
  have h4 := hall _ (show linkC ts22 "P2_T2" 0 "ts_1" ∈ m22.constrs by decide)
  have h5 := hall _ (show (⟨⟨[((1 : Int), Var.sched "P1_T1" "ts_1"),
    ((1 : Int), Var.sched "P1_T2" "ts_1")], 0⟩, Cmp.eq, ⟨[], 1⟩⟩ : Constr) ∈ m22.constrs
    by decide)
  have h6 := hall _ (show (⟨⟨[((1 : Int), Var.sched "P2_T1" "ts_1"),
    ((1 : Int), Var.sched "P2_T2" "ts_1")], 0⟩, Cmp.eq, ⟨[], 1⟩⟩ : Constr) ∈ m22.constrs
    by decide)
  simp only [satC, linkC, ts22, evalExpr, List.take_succ_cons, List.take_zero,
    List.map_cons, List.map_nil, List.sum_cons, List.sum_nil, decide_eq_true_eq]
    at h1 h2 h3 h4 h5 h6
  rw [show m22.objective = [((1 : Int), Var.activ "P1_T1" "ts_1"), (1, Var.activ "P1_T1" "ts_2"),
    (1, Var.activ "P1_T2" "ts_1"), (1, Var.activ "P1_T2" "ts_2"),
    (1, Var.activ "P2_T1" "ts_1"), (1, Var.activ "P2_T1" "ts_2"),
    (1, Var.activ "P2_T2" "ts_1"), (1, Var.activ "P2_T2" "ts_2")] from rfl]
  simp only [objVal, List.map_cons, List.map_nil, List.sum_cons, List.sum_nil]
  have b1 := bval_le_one (a (Var.activ "P1_T1" "ts_2"))
  have b2 := bval_le_one (a (Var.activ "P1_T2" "ts_2"))
  have b3 := bval_le_one (a (Var.activ "P2_T1" "ts_2"))
  have b4 := bval_le_one (a (Var.activ "P2_T2" "ts_2"))
  omega

theorem m22_feas_a6 : feasB m22 a6 = true := by rfl

theorem m22_obj_a6 : objVal a6 m22.objective = 6 := by rfl

/-! ## The claims -/

/-- C1 (counterexample): the claim says that an instance whose edge list
references an unknown task makes formulation fail with an
`UnknownTaskReference` error before any decision variable is created.  On
the malformed instance `tsBad/tasksBad/rewardsBad/edgesBad` (whose edge
references the unknown task `"ZZZ"`) the run does fail, but with a
dictionary `KeyError`, and its event trace contains variable-creation
events — so variables were created before the failure, refuting the
claim at this concrete input. -/
theorem C1_counterexample :
    (∃ e ∈ edgesBad, e.1 ∉ allTasks tasksBad ∨ e.2 ∉ allTasks tasksBad) ∧
    model_isg tsBad tasksBad rewardsBad edgesBad = Except.error "KeyError" ∧
    Event.keyError ∈ model_events tsBad tasksBad rewardsBad edgesBad ∧
    Event.varCreated (Var.sched "P1_T1" "ts_1") ∈
      model_events tsBad tasksBad rewardsBad edgesBad :=
  ⟨by decide, by rfl, by decide, by decide⟩

/-- C1 (amended): for every instance with a nonempty time-step list whose
edge list references a task absent from the instance, formulation fails
with a dictionary `KeyError` raised during edge-constraint generation —
after all decision variables have been created: the event trace is the
variable-creation events followed by a tail containing the `KeyError`. -/
theorem C1_fail_after_vars (ts : List String) (tasks : List (String × List String))
    (rewards : List (String × Nat)) (edges : List (String × String))
    (hbad : ∃ e ∈ edges, e.1 ∉ allTasks tasks ∨ e.2 ∉ allTasks tasks) (hts : ts ≠ []) :
    model_isg ts tasks rewards edges = Except.error "KeyError" ∧
    ∃ rest, model_events ts tasks rewards edges =
      (mkVars (allTasks tasks) ts).map Event.varCreated ++ rest ∧
      Event.keyError ∈ rest := by
  refine ⟨model_isg_error_of_bad_edge ts tasks rewards edges hbad hts, ?_⟩
  refine ⟨_, model_events_error ts tasks rewards edges (bad_pair_of_bad_edge hbad hts), ?_⟩
  exact List.mem_append_right _ (List.mem_append_right _ (List.mem_append_right _
    (edgeEvents_error_of_bad _ _ _ (bad_pair_of_bad_edge hbad hts))))

/-- C1 (witness): the amended theorem applied to the malformed instance. -/
theorem C1_fail_after_vars_witness :
    model_isg tsBad tasksBad rewardsBad edgesBad = Except.error "KeyError" ∧
    ∃ rest, model_events tsBad tasksBad rewardsBad edgesBad =
      (mkVars (allTasks tasksBad) tsBad).map Event.varCreated ++ rest ∧
      Event.keyError ∈ rest :=
  C1_fail_after_vars tsBad tasksBad rewardsBad edgesBad (by decide) (by decide)

/-- C2 (counterexample): the claim says the optimal objective value of the
2-player 2-task uniform-reward no-edge instance is 8.  It is not: no
feasible 0/1 assignment of the formulated model reaches an objective value
above 6. -/
theorem C2_counterexample : ¬ IsOptimal m22 8 := by
  intro h
  obtain ⟨⟨a, hf, ho⟩, _⟩ := h
  have := m22_upper a hf
  omega

/-- C2 (amended): the maximum objective value over all assignments
satisfying the constraints formulated for the 2-player 2-task instance
with an empty edge list and uniform rewards equals 6, not 8. -/
theorem C2_optimal_value : IsOptimal m22 6 :=
  ⟨⟨a6, m22_feas_a6, m22_obj_a6⟩, m22_upper⟩

/-- C3: for every instance whose formulation succeeds and every dependency
edge `(e0, e1)` in it, the model contains the same-slot constraint
`active[e1,t] ≤ active[e0,t]` for every time step `t`, and no constraint
of the model mentions the activity of `e0` and of `e1` at two different
slots. -/
theorem C3_same_slot_edge_constraints (ts : List String)
    (tasks : List (String × List String)) (rewards : List (String × Nat))
    (edges : List (String × String)) (m : IPModel)
    (h : model_isg ts tasks rewards edges = Except.ok m) :
    ∀ e ∈ edges, (∀ t ∈ ts, edgeC e t ∈ m.constrs) ∧
      ∀ c ∈ m.constrs, ∀ t' t'', t' ≠ t'' →
        ¬ (Mentions c (Var.activ e.1 t') ∧ Mentions c (Var.activ e.2 t'')) := by
  intro e he
  refine ⟨fun t ht => edgeC_mem_constrs h he ht, ?_⟩
  intro c hc t' t'' hne hm
  exact hne (model_activ_same_slot h c hc _ _ _ _ hm.1 hm.2)

/-- C3 (witness): the theorem applied to the 2-player 2-task instance
with the single edge `("P1_T1", "P2_T1")`. -/
theorem C3_same_slot_edge_constraints_witness :
    edgeC ("P1_T1", "P2_T1") "ts_1" ∈ m22e.constrs :=
  ((C3_same_slot_edge_constraints ts22 tasks22 rewards22 edges22e m22e (by rfl))
    ("P1_T1", "P2_T1") (by decide)).1 "ts_1" (by decide)

/-- C4: for every instance whose formulation succeeds, every task `v` and
every slot index `i` with `t = slots[i]`, the model contains the
activity-linkage constraint `sum_{j=0..i} scheduled[v, slots[j]] ≥
active[v,t]`; and no constraint forces activity: setting every `active`
variable of a feasible assignment to 0 leaves it feasible, so a task may
be scheduled without ever being active. -/
theorem C4_activity_linkage (ts : List String) (tasks : List (String × List String))
    (rewards : List (String × Nat)) (edges : List (String × String)) (m : IPModel)
    (h : model_isg ts tasks rewards edges = Except.ok m) :
    (∀ v ∈ allTasks tasks, ∀ i : Nat, i < ts.length →
      linkC ts v i (ts.getD i "") ∈ m.constrs) ∧
    ∀ a, feasB m a = true → feasB m (zeroActive a) = true :=
  ⟨fun _ hv _ hi => linkC_mem_constrs h hv hi, feasB_zeroActive h⟩

/-- C4 (witness): the theorem applied to the 2-player 2-task instance. -/
theorem C4_activity_linkage_witness :
    linkC ts22 "P1_T1" 0 "ts_1" ∈ m22.constrs ∧
    feasB m22 (zeroActive a6) = true :=
  ⟨(C4_activity_linkage ts22 tasks22 rewards22 [] m22 (by rfl)).1 "P1_T1" (by decide)
      0 (by decide),
    (C4_activity_linkage ts22 tasks22 rewards22 [] m22 (by rfl)).2 a6 (by rfl)⟩

/-- C5: the edge-generation step of the generator follows exactly the
spec's algorithm: `edgeGenSpec` (flatten the tasks into one pool, shuffle,
then repeatedly pop the front task `t0`, draw `r` uniformly from 1..5 and
for offsets `i < r` with at least `i+2` tasks remaining add `(t0, pool[i])`
with probability 1/2 drawn as 2 successes out of 4 uniform outcomes)
computes exactly the code's edge step, and the edges of every generated
instance are those of the spec's algorithm. -/
theorem C5_edge_generation_algorithm :
    (∀ (tasks : List (String × List String)) (g : Rng),
      edgeGenSpec tasks g = edge_step tasks g) ∧
    ∀ (p t : Nat) (u : Bool) (g : Rng),
      (gen_instance p t u g).1.edges =
        (edgeGenSpec (genTasks p t) (gen_rewards u (allTasks (genTasks p t)) g).2).1 := by
  have hmain : ∀ (tasks : List (String × List String)) (g : Rng),
      edgeGenSpec tasks g = edge_step tasks g := by
    intro tasks g
    simp only [edgeGenSpec, edge_step, edgeLoopSpec_eq]
  refine ⟨hmain, ?_⟩
  intro p t u g
  rw [gen_instance_edges_eq, hmain (genTasks p t)]
  rfl

/-- C6: every instance generated with `P ≥ 1` players and `T ≥ 1` tasks
per player formulates successfully into a model with exactly `2·P·T²`
binary decision variables — one `scheduled[v,t]` and one `active[v,t]`
per task and time step, without duplicates, and no others. -/
theorem C6_variable_count (p t : Nat) (u : Bool) (g : Rng) (_hp : 1 ≤ p) (_ht : 1 ≤ t) :
    ∃ m, model_isg (gen_instance p t u g).1.time_steps (gen_instance p t u g).1.tasks
        (gen_instance p t u g).1.rewards (gen_instance p t u g).1.edges = Except.ok m ∧
      m.vars.length = 2 * p * t ^ 2 ∧
      m.vars.Nodup ∧
      (∀ v ∈ allTasks ((gen_instance p t u g).1.tasks),
        ∀ s ∈ (gen_instance p t u g).1.time_steps,
          Var.sched v s ∈ m.vars ∧ Var.activ v s ∈ m.vars) ∧
      ∀ x ∈ m.vars, ∃ v, v ∈ allTasks ((gen_instance p t u g).1.tasks) ∧
        ∃ s, s ∈ (gen_instance p t u g).1.time_steps ∧
          (x = Var.sched v s ∨ x = Var.activ v s) := by
  obtain ⟨m, hm⟩ := gen_model_ok p t u g
  obtain ⟨hv, _, _, _⟩ := model_isg_ok_elim hm
  rw [gen_instance_tasks, gen_instance_time_steps] at hv
  refine ⟨m, hm, ?_, ?_, ?_, ?_⟩
  · rw [hv, mkVars_length, allTasks_genTasks_length, genSteps_length]
    ring
  · rw [hv]
    exact mkVars_nodup _ _ (allTasks_genTasks_nodup p t) (genSteps_nodup t)
  · intro v hvv s hs
    rw [hv]
    rw [gen_instance_tasks] at hvv
    rw [gen_instance_time_steps] at hs
    exact ⟨mem_mkVars_sched hvv hs, mem_mkVars_activ hvv hs⟩
  · intro x hx
    rw [hv] at hx
    obtain ⟨v, hvv, s, hs, hor⟩ := mkVars_elim hx
    exact ⟨v, by rw [gen_instance_tasks]; exact hvv, s,
      by rw [gen_instance_time_steps]; exact hs, hor⟩

/-- C6 (witness): the theorem applied at `P = 1`, `T = 1`. -/
theorem C6_variable_count_witness :
    ∃ m, model_isg (gen_instance 1 1 true rng0).1.time_steps
        (gen_instance 1 1 true rng0).1.tasks (gen_instance 1 1 true rng0).1.rewards
        (gen_instance 1 1 true rng0).1.edges = Except.ok m ∧
      m.vars.length = 2 * 1 * 1 ^ 2 ∧
      m.vars.Nodup ∧
      (∀ v ∈ allTasks ((gen_instance 1 1 true rng0).1.tasks),
        ∀ s ∈ (gen_instance 1 1 true rng0).1.time_steps,
          Var.sched v s ∈ m.vars ∧ Var.activ v s ∈ m.vars) ∧
      ∀ x ∈ m.vars, ∃ v, v ∈ allTasks ((gen_instance 1 1 true rng0).1.tasks) ∧
        ∃ s, s ∈ (gen_instance 1 1 true rng0).1.time_steps ∧
          (x = Var.sched v s ∨ x = Var.activ v s) :=
  C6_variable_count 1 1 true rng0 (by decide) (by decide)

/-- C7: for `P ≥ 1`, `T ≥ 1`, the generator gives every task exactly one
reward entry — the reward-map keys are exactly the task pool in order —
with value 1 when `uniform` is true and an integer in `50..100`
otherwise. -/
theorem C7_rewards (p t : Nat) (u : Bool) (g : Rng) (_hp : 1 ≤ p) (_ht : 1 ≤ t) :
    ((gen_instance p t u g).1.rewards).map Prod.fst =
      allTasks ((gen_instance p t u g).1.tasks) ∧
    (u = true → ∀ pr ∈ (gen_instance p t u g).1.rewards, pr.2 = 1) ∧
    (u = false → ∀ pr ∈ (gen_instance p t u g).1.rewards,
      50 ≤ pr.2 ∧ pr.2 ≤ 100) := by
  refine ⟨?_, ?_, ?_⟩
  · rw [gen_instance_tasks]
    exact gen_instance_rewards_keys p t u g
  · rintro rfl
    rw [gen_instance_rewards_eq]
    exact gen_rewards_uniform_val _ _
  · rintro rfl
    rw [gen_instance_rewards_eq]
    exact gen_rewards_range _ _

/-- C7 (witness): the theorem applied at `P = 1`, `T = 1`. -/
theorem C7_rewards_witness :
    ((gen_instance 1 1 true rng0).1.rewards).map Prod.fst =
      allTasks ((gen_instance 1 1 true rng0).1.tasks) ∧
    (true = true → ∀ pr ∈ (gen_instance 1 1 true rng0).1.rewards, pr.2 = 1) ∧
    (true = false → ∀ pr ∈ (gen_instance 1 1 true rng0).1.rewards,
      50 ≤ pr.2 ∧ pr.2 ≤ 100) :=
  C7_rewards 1 1 true rng0 (by decide) (by decide)

/-- C8: generation is deterministic in the random source: two runs started
from equal random-generator states produce equal instances (time steps,
tasks, rewards and edges) and equal final generator states. -/
theorem C8_deterministic (p t : Nat) (u : Bool) (g1 g2 : Rng) (h : g1 = g2) :
    gen_instance p t u g1 = gen_instance p t u g2 := by
  rw [h]

/-- C8 (witness): the theorem applied at `generate(2, 3, uniform=True)`
with a fixed seed. -/
theorem C8_deterministic_witness :
    gen_instance 2 3 true rng0 = gen_instance 2 3 true rng0 :=
  C8_deterministic 2 3 true rng0 rng0 rfl

/-- C9: formulating a model leaves the instance unchanged: running
`model_isg` as a state transformer returns a state whose time steps,
tasks, rewards and edges equal their values before the call. -/
theorem C9_instance_unchanged (s : PyState) :
    (model_isg_st s).2.time_steps = s.time_steps ∧
    (model_isg_st s).2.tasks = s.tasks ∧
    (model_isg_st s).2.rewards = s.rewards ∧
    (model_isg_st s).2.edges = s.edges :=
  ⟨rfl, rfl, rfl, rfl⟩

/-- C10: every dependency edge produced by the generator is well-formed:
both endpoints are tasks of the instance, no self-loops, no duplicate
edges, and each task is the predecessor of at most 5 edges. -/
theorem C10_edges_wellformed (p t : Nat) (u : Bool) (g : Rng) :
    (∀ e ∈ (gen_instance p t u g).1.edges,
        e.1 ∈ allTasks ((gen_instance p t u g).1.tasks) ∧
        e.2 ∈ allTasks ((gen_instance p t u g).1.tasks) ∧ e.1 ≠ e.2) ∧
    ((gen_instance p t u g).1.edges).Nodup ∧
    ∀ v : String, ((gen_instance p t u g).1.edges).countP (fun e => e.1 == v) ≤ 5 :=
  gen_instance_edges_props p t u g

/-- C10 (witness): the theorem applied to a generated instance that
contains the edge `("P1_T2", "P1_T1")`. -/
theorem C10_edges_wellformed_witness :
    ("P1_T2" : String) ∈ allTasks ((gen_instance 1 3 true rng2).1.tasks) ∧
    ("P1_T1" : String) ∈ allTasks ((gen_instance 1 3 true rng2).1.tasks) ∧
    ("P1_T2" : String) ≠ "P1_T1" :=
  (C10_edges_wellformed 1 3 true rng2).1 ("P1_T2", "P1_T1") (by decide)

end ISG
